import Mathlib

/-!
# Verification of the character-level Markov chain engine

This file is a shallow embedding, in Lean 4, of the repository's core
component: the `MarkovChain` class of `mini_ai/markov.py` (the
`release_gate_after_best_patch_177182/python-ai-stdlib-oracle_run_09`
copy, the variant the specification designates as canonical).  Strings
are embedded as `List Char`, Python `dict`s (which preserve insertion
order and have unique keys) as insertion-ordered association lists, and
fallible Python code as `Except PyErr` where the source can raise.
Python's process-wide `random` generator is embedded as an explicit
state of type `Rng` threaded through `generate`; the Mersenne-Twister
stream itself is modelled by a deterministic linear-congruential
stand-in, preserving the structure that matters to the contracts: the
stream is a deterministic function of the seed, a uniform choice
consumes one draw, and a weighted choice consumes one draw below the
total weight.
-/

/-- The Python exception kinds the embedded code can raise:
`random.choice` on an empty sequence raises `IndexError`, subscripting a
`dict` with a missing key raises `KeyError`, `int.__le__` against a
non-`int` raises `TypeError`, and the `MarkovChain` constructor raises
`ValueError` on a non-positive order. -/
inductive PyErr where
  | indexError
  | keyError
  | typeError
  | valueError
  deriving Repr, DecidableEq

/-- State of the pseudo-random generator (stand-in for Python's global
`random` state). -/
abbrev Rng := Nat

/-- One step of the linear-congruential stand-in stream. -/
def rngNext (g : Rng) : Rng :=
  (g * 1103515245 + 12345) % 2 ^ 31

/-- `random.seed(s)`: the generator state becomes a deterministic
function of the seed alone. -/
def seedRng (s : Int) : Rng :=
  rngNext (s.natAbs + 2654435769)

/-- Draw a uniform value below `n` (one generator step). -/
def randBelow (g : Rng) (n : Nat) : Nat × Rng :=
  (rngNext g % n, rngNext g)

/-- A context: an ordered sequence of characters (a Python string key). -/
abbrev Ctx := List Char

/-- The inner counter `dict` of one context: next character ↦ count,
in insertion order. -/
abbrev Row := List (Char × Nat)

/-- The transition table: context ↦ counter `dict`, in insertion order. -/
abbrev Table := List (Ctx × Row)

/-- First-match association-list lookup, the embedding of Python
`d.get(key)` / `key in d`. -/
def alookup {κ α : Type} [DecidableEq κ] : List (κ × α) → κ → Option α
  | [], _ => none
  | (k, v) :: rest, key => if k = key then some v else alookup rest key

/-- The model: `self.order` and `self.transitions` of the Python class. -/
structure MarkovChain where
  order : Nat
  transitions : Table
  deriving Repr, DecidableEq

/-- `MarkovChain.__init__`: `if order <= 0: raise ValueError(...)`, else
the model starts with the given order and an empty transition table.
The Python argument is an `int`, embedded as `Int`. -/
def construct (order : Int) : Except PyErr MarkovChain :=
  if order ≤ 0 then .error .valueError
  else .ok { order := order.toNat, transitions := [] }

/-- The inner-dict update of `train`:
`if next_char not in d: d[next_char] = 0` followed by
`d[next_char] += 1` — increment in place, or append `(c, 1)` at the
end on first sight. -/
def bumpRow : Row → Char → Row
  | [], c => [(c, 1)]
  | (a, n) :: rest, c =>
      if a = c then (a, n + 1) :: rest else (a, n) :: bumpRow rest c

/-- The outer update of `train`:
`if context not in self.transitions: self.transitions[context] = {}`
followed by the inner-dict update. -/
def bumpTable : Table → Ctx → Char → Table
  | [], c, ch => [(c, [(ch, 1)])]
  | (k, row) :: rest, c, ch =>
      if k = c then (k, bumpRow row ch) :: rest
      else (k, row) :: bumpTable rest c ch

/-- `MarkovChain.train(text)`:
`for i in range(len(text) - self.order):` extract
`context = text[i:i+self.order]`, `next_char = text[i+self.order]` and
bump `self.transitions[context][next_char]`. -/
def train (m : MarkovChain) (text : List Char) : MarkovChain :=
  { m with
    transitions :=
      (List.range (text.length - m.order)).foldl
        (fun tbl i =>
          bumpTable tbl ((text.drop i).take m.order) (text.getD (i + m.order) ' '))
        m.transitions }

/-- `train` with Python indexing made explicit: `text[i + self.order]`
is an `Option`-returning access, so this returns `none` exactly when the
Python loop would raise an `IndexError`.  Proved below to always return
`some` — training never raises on any text content. -/
def trainChecked (m : MarkovChain) (text : List Char) : Option MarkovChain :=
  ((List.range (text.length - m.order)).foldlM
    (fun tbl i =>
      (text.get? (i + m.order)).map
        (fun ch => bumpTable tbl ((text.drop i).take m.order) ch))
    m.transitions).map
    (fun t => { m with transitions := t })

/-- A freshly constructed, untrained model of the given order. -/
def mkChain (k : Nat) : MarkovChain :=
  { order := k, transitions := [] }

/-- A fresh model of order `k` after a sequence of `train(text)` calls. -/
def trainAll (k : Nat) (texts : List (List Char)) : MarkovChain :=
  texts.foldl train (mkChain k)

/-- Spec-side counter (from the specification's words, for comparison
with the table built by `train`): the number of positions `i` with
`0 ≤ i ≤ len(text) - k - 1` at which `text[i:i+k] = c` and
`text[i+k] = ch`. -/
def specOcc (k : Nat) (text : List Char) (c : Ctx) (ch : Char) : Nat :=
  ((List.range (text.length - k)).filter
    (fun i => (text.drop i).take k = c ∧ text.get? (i + k) = some ch)).length

/-- Spec-side counter: the number of positions at which the length-`k`
window equals `c` (and a following character exists). -/
def specCtxOcc (k : Nat) (text : List Char) (c : Ctx) : Nat :=
  ((List.range (text.length - k)).filter
    (fun i => (text.drop i).take k = c)).length

/-- The count recorded in a transition table for context `c` followed by
`ch`; `0` when either key is absent. -/
def tableCount (tbl : Table) (c : Ctx) (ch : Char) : Nat :=
  match alookup tbl c with
  | none => 0
  | some row =>
    match alookup row ch with
    | none => 0
    | some n => n

/-- Whether the table records context `c` followed by `ch`: both the
outer key and the inner key are present. -/
def pairPresent (tbl : Table) (c : Ctx) (ch : Char) : Bool :=
  match alookup tbl c with
  | none => false
  | some row => (alookup row ch).isSome

/-- Python slicing `result[-k:]`: the last `k` elements, except that
`k = 0` gives the whole list (`result[-0:]` is `result[0:]`). -/
def sliceLast {α : Type} (k : Nat) (l : List α) : List α :=
  if k = 0 then l else l.drop (l.length - k)

/-- Total weight of a counter `dict`, `sum(d.values())`. -/
def rowTotal (row : Row) : Nat :=
  (row.map Prod.snd).sum

/-- The integer shadow of `random.choices(population, weights, k=1)`:
given a draw `r` below the total weight, walk the cumulative weights and
return the first candidate whose cumulative segment contains `r`. -/
def weightedPick : Row → Nat → Char
  | [], _ => ' '
  | (c, w) :: rest, r => if r < w then c else weightedPick rest (r - w)

/-- The generator state at the start of a `generate` call:
`if random_seed is not None: random.seed(random_seed)`, otherwise the
process-wide state `g` is used as it stands. -/
def initRng (g : Rng) (randomSeed : Option Int) : Rng :=
  match randomSeed with
  | some s => seedRng s
  | none => g

/-- Initial-context selection of `generate`:
`if seed is not None and len(seed) == self.order: context = seed`
`else: context = random.choice(list(self.transitions.keys()))` —
`random.choice` raises `IndexError` on an empty key list. -/
def chooseCtx (m : MarkovChain) (g : Rng) (seed : Option Ctx) :
    Except PyErr (Ctx × Rng) :=
  match seed with
  | some s =>
    if s.length = m.order then .ok (s, g)
    else
      match m.transitions.map Prod.fst with
      | [] => .error .indexError
      | ks =>
        let p := randBelow g ks.length
        .ok (ks.getD p.1 [], p.2)
  | none =>
    match m.transitions.map Prod.fst with
    | [] => .error .indexError
    | ks =>
      let p := randBelow g ks.length
      .ok (ks.getD p.1 [], p.2)

/-- The walk of `generate`, one recursive step per iteration of
`for _ in range(length - self.order):`.  `self.transitions[context]`
raises `KeyError` when the context is absent — there is no dead-end
check in this variant.  `random.choices` raises `IndexError` on an
empty population and `ValueError` when the weights sum to zero;
otherwise one character is drawn with weight proportional to its count,
appended to the result, and the context becomes
`''.join(result[-self.order:])`. -/
def genLoop (m : MarkovChain) : Nat → List Char → Ctx → Rng → Except PyErr (List Char)
  | 0, result, _, _ => .ok result
  | n + 1, result, ctx, g =>
    match alookup m.transitions ctx with
    | none => .error .keyError
    | some row =>
      if row = [] then .error .indexError
      else if rowTotal row = 0 then .error .valueError
      else
        let p := randBelow g (rowTotal row)
        let ch := weightedPick row p.1
        genLoop m n (result ++ [ch]) (sliceLast m.order (result ++ [ch])) p.2

/-- `MarkovChain.generate(length, seed, random_seed)`: seed the
generator if `random_seed` is given, select the initial context, set
`result = list(context)`, run the walk for `length - self.order`
iterations, and return `''.join(result)`. -/
def generate (m : MarkovChain) (g : Rng) (len : Nat) (seed : Option Ctx)
    (randomSeed : Option Int) : Except PyErr (List Char) :=
  let g0 := initRng g randomSeed
  match chooseCtx m g0 seed with
  | .error e => .error e
  | .ok (ctx, g1) => genLoop m (len - m.order) ctx ctx g1

/-- `True` when a generation result, if it succeeded, has exactly the
stated length. -/
def resultLenOk (r : Except PyErr (List Char)) (n : Nat) : Bool :=
  match r with
  | .ok out => out.length == n
  | .error _ => true

/-- The structured form (`to_dict` output / `from_dict` input): a tree
of Python primitives — integers, strings, and insertion-ordered
dictionaries with string keys. -/
inductive PyVal where
  | int (n : Int)
  | str (s : List Char)
  | pydict (entries : List (List Char × PyVal))

/-- The string key `"order"`. -/
def orderKey : List Char := ['o', 'r', 'd', 'e', 'r']

/-- The string key `"transitions"`. -/
def transKey : List Char :=
  ['t', 'r', 'a', 'n', 's', 'i', 't', 'i', 'o', 'n', 's']

/-- Encoding of one inner counter `dict` as primitives: each next
character becomes a one-character string key with its integer count. -/
def encodeRow (row : Row) : PyVal :=
  .pydict (row.map (fun p => ([p.1], .int p.2)))

/-- Encoding of the transition table as primitives. -/
def encodeTable (tbl : Table) : PyVal :=
  .pydict (tbl.map (fun p => (p.1, encodeRow p.2)))

/-- `MarkovChain.to_dict()`:
`{"order": self.order, "transitions": self.transitions}`. -/
def to_dict (m : MarkovChain) : PyVal :=
  .pydict [(orderKey, .int m.order), (transKey, encodeTable m.transitions)]

/-- Python `d[key]`: `KeyError` when the key is missing, `TypeError`
when the subscripted value is not a `dict`. -/
def dictGet (v : PyVal) (key : List Char) : Except PyErr PyVal :=
  match v with
  | .pydict es =>
    match alookup es key with
    | some x => .ok x
    | none => .error .keyError
  | _ => .error .typeError

/-- The object `from_dict` returns: a `MarkovChain` whose `transitions`
attribute is whatever value the input carried, with no shape
validation. -/
structure RawModel where
  order : Int
  transitions : PyVal

/-- `MarkovChain.from_dict(d)`:
`mc = cls(order=d["order"])` — `d["order"]` raises `KeyError` if
missing, the constructor raises `TypeError` when the order is not an
integer (ordering against an `int`) and `ValueError` when it is `≤ 0` —
then `mc.transitions = d["transitions"]` assigns the raw value
unvalidated. -/
def from_dict (v : PyVal) : Except PyErr RawModel :=
  match dictGet v orderKey with
  | .error e => .error e
  | .ok o =>
    match o with
    | .int n =>
      if n ≤ 0 then .error .valueError
      else
        match dictGet v transKey with
        | .error e => .error e
        | .ok t => .ok { order := n, transitions := t }
    | _ => .error .typeError

/-- Decoding of one encoded counter `dict` back into a typed row:
every key must be a one-character string with a non-negative integer
count. -/
def decodeRow : List (List Char × PyVal) → Option Row
  | [] => some []
  | ([ch], .int n) :: rest =>
    if 0 ≤ n then (decodeRow rest).map (fun r => (ch, n.toNat) :: r) else none
  | _ => none

/-- Decoding of an encoded transition table back into a typed table. -/
def decodeTable : List (Ctx × PyVal) → Option Table
  | [] => some []
  | (c, .pydict inner) :: rest =>
    match decodeRow inner with
    | some row => (decodeTable rest).map (fun t => (c, row) :: t)
    | none => none
  | _ => none

/-- The semantic reading of a `from_dict` result as a typed model:
defined exactly when the raw `transitions` value is a well-shaped
table and the order is positive. -/
def rawToChain (r : RawModel) : Option MarkovChain :=
  if 1 ≤ r.order then
    match r.transitions with
    | .pydict es =>
      (decodeTable es).map (fun t => { order := r.order.toNat, transitions := t })
    | _ => none
  else none

/-! ## General lemmas about the embedded operations -/

theorem train_order (m : MarkovChain) (t : List Char) : (train m t).order = m.order :=
  rfl

/-- A usable seed (right length) is taken verbatim by the
initial-context selection, whether or not it is a table key. -/
theorem chooseCtx_usable_seed (m : MarkovChain) (g : Rng) (s : Ctx)
    (hs : s.length = m.order) : chooseCtx m g (some s) = .ok (s, g) := by
  simp [chooseCtx, hs]

/-- A wrong-length seed is handled exactly like a missing seed. -/
theorem chooseCtx_unusable_seed (m : MarkovChain) (g : Rng) (s : Ctx)
    (hs : s.length ≠ m.order) : chooseCtx m g (some s) = chooseCtx m g none := by
  simp [chooseCtx, hs]

/-- With an empty transition table, initial-context selection without a
usable seed is `random.choice([])`, an `IndexError`. -/
theorem chooseCtx_empty (k : Nat) (g : Rng) (seed : Option Ctx)
    (hseed : ∀ t, seed = some t → t.length ≠ k) :
    chooseCtx (mkChain k) g seed = .error .indexError := by
  cases seed with
  | none => simp [chooseCtx, mkChain]
  | some t => simp [chooseCtx, mkChain, hseed t rfl]

/-- A random starting context is one of the table keys. -/
theorem chooseCtx_none_ok (m : MarkovChain) (g : Rng) (ctx : Ctx) (g' : Rng)
    (h : chooseCtx m g none = .ok (ctx, g')) :
    ctx ∈ m.transitions.map Prod.fst := by
  cases hks : m.transitions.map Prod.fst with
  | nil => simp [chooseCtx, hks] at h
  | cons k ks =>
    simp only [chooseCtx, hks] at h
    simp only [Except.ok.injEq, Prod.mk.injEq] at h
    obtain ⟨h1, _⟩ := h
    subst h1
    have hlt : (randBelow g (k :: ks).length).1 < (k :: ks).length := by
      simp only [randBelow]
      exact Nat.mod_lt _ (by simp)
    rw [List.getD_eq_getElem _ _ hlt]
    exact List.getElem_mem hlt

/-- A successful initial context is either the usable seed or one of the
table keys. -/
theorem chooseCtx_ok_cases (m : MarkovChain) (g : Rng) (seed : Option Ctx)
    (ctx : Ctx) (g' : Rng) (h : chooseCtx m g seed = .ok (ctx, g')) :
    (seed = some ctx ∧ ctx.length = m.order) ∨
      ctx ∈ m.transitions.map Prod.fst := by
  cases seed with
  | some s =>
    by_cases hs : s.length = m.order
    · rw [chooseCtx_usable_seed m g s hs] at h
      cases h
      exact Or.inl ⟨rfl, hs⟩
    · rw [chooseCtx_unusable_seed m g s hs] at h
      exact Or.inr (chooseCtx_none_ok m g ctx g' h)
  | none => exact Or.inr (chooseCtx_none_ok m g ctx g' h)

/-- Helper: a list that starts with `res ++ ext` also starts with `res`. -/
theorem take_shrink (out res ext : List Char)
    (h : out.take (res ++ ext).length = res ++ ext) :
    out.take res.length = res := by
  have hmin : res.length ⊓ (res ++ ext).length = res.length :=
    min_eq_left (by simp)
  have h1 : out.take res.length = (out.take (res ++ ext).length).take res.length := by
    rw [List.take_take, hmin]
  rw [h1, h]
  exact List.take_left res ext

/-- The walk only ever appends to the accumulated result: a successful
outcome starts with the accumulated result it was given. -/
theorem genLoop_take (m : MarkovChain) :
    ∀ (n : Nat) (res : List Char) (ctx : Ctx) (g : Rng) (out : List Char),
      genLoop m n res ctx g = .ok out → out.take res.length = res := by
  intro n
  induction n with
  | zero =>
    intro res ctx g out h
    cases h
    exact List.take_length res
  | succ n ih =>
    intro res ctx g out h
    simp only [genLoop] at h
    split at h
    · cases h
    · split at h
      · cases h
      · split at h
        · cases h
        · exact take_shrink out res _ (ih _ _ _ _ h)

/-- A successful walk of `n` steps appends exactly `n` characters. -/
theorem genLoop_length (m : MarkovChain) :
    ∀ (n : Nat) (res : List Char) (ctx : Ctx) (g : Rng) (out : List Char),
      genLoop m n res ctx g = .ok out → out.length = res.length + n := by
  intro n
  induction n with
  | zero =>
    intro res ctx g out h
    cases h
    rfl
  | succ n ih =>
    intro res ctx g out h
    simp only [genLoop] at h
    split at h
    · cases h
    · split at h
      · cases h
      · split at h
        · cases h
        · have := ih _ _ _ _ h
          simp at this
          omega

/-- When `length ≤ order` the walk runs zero iterations: `generate`
returns whatever initial context was selected. -/
theorem generate_short (m : MarkovChain) (g : Rng) (len : Nat)
    (seed : Option Ctx) (rs : Option Int) (hlen : len ≤ m.order) :
    generate m g len seed rs =
      (chooseCtx m (initRng g rs) seed).map Prod.fst := by
  cases h : chooseCtx m (initRng g rs) seed with
  | error e => simp [generate, h, Except.map]
  | ok p =>
    obtain ⟨ctx, g1⟩ := p
    simp [generate, h, Nat.sub_eq_zero_of_le hlen, genLoop, Except.map]


/-- The walk started from a usable seed, as an unfolding of `generate`. -/
theorem generate_usable_seed (m : MarkovChain) (g : Rng) (len : Nat) (s : Ctx)
    (rs : Option Int) (hs : s.length = m.order) :
    generate m g len (some s) rs =
      genLoop m (len - m.order) s s (initRng g rs) := by
  simp [generate, chooseCtx_usable_seed m (initRng g rs) s hs]

/-! ## Claim theorems -/

/-- C2: `generate` is deterministic once `random_seed` is fixed: with
`random_seed = S` supplied, the pseudo-random source is re-seeded from
`S` alone, so the output is identical across calls regardless of the
prior state of the process-wide generator — in particular two calls
with identical arguments on identical models return identical
results. -/
theorem generate_deterministic_for_fixed_random_seed
    (m : MarkovChain) (len : Nat) (seed : Option Ctx) (S : Int)
    (g₁ g₂ : Rng) :
    generate m g₁ len seed (some S) = generate m g₂ len seed (some S) := rfl

/-- C9: construction fails with the `InvalidOrder` condition (a
`ValueError`) exactly when the requested order is `≤ 0`; for every
order `≥ 1` it returns a model with that order and an empty transition
table. -/
theorem construct_invalid_order (k : Int) :
    (construct k = .error .valueError ↔ k ≤ 0) ∧
      (1 ≤ k → construct k = .ok { order := k.toNat, transitions := [] }) := by
  constructor
  · constructor
    · intro h
      by_contra hk
      simp [construct, hk] at h
    · intro hk
      simp [construct, hk]
  · intro hk
    have : ¬k ≤ 0 := by omega
    simp [construct, this]

/-- Witness for C9: `construct 0` and `construct (-3)` fail with the
`ValueError` condition and `construct 2` yields the fresh order-2
model. -/
theorem construct_invalid_order_witness :
    construct 0 = .error .valueError ∧
      construct (-3) = .error .valueError ∧
      construct 2 = .ok { order := 2, transitions := [] } :=
  ⟨(construct_invalid_order 0).1.mpr (by decide),
   (construct_invalid_order (-3)).1.mpr (by decide),
   (construct_invalid_order 2).2 (by decide)⟩

/-- C4 counterexample: on a freshly constructed (hence untrained,
empty-table) order-1 model, `generate(length=1, seed="a")` does not
fail at all: the length-1 seed is accepted as the starting context and
returned.  This refutes the claim that every `generate` call on an
empty-table model fails with an `UntrainedModel` condition. -/
theorem untrained_generate_succeeds_with_seed :
    generate (mkChain 1) 0 1 (some ['a']) none = .ok ['a'] := rfl

/-- C4 amended: with an empty transition table, a `generate` call
without a seed of length exactly `order` fails with the `IndexError`
raised by `random.choice` on the empty key list (there is no dedicated
`UntrainedModel` condition); a call with a seed of length exactly
`order` proceeds — it returns the seed when `length ≤ order` and fails
with a `KeyError` when `length > order`. -/
theorem untrained_generate_behaviour (k : Nat) (g : Rng) (len : Nat)
    (s : Ctx) (rs : Option Int) :
    (∀ seed : Option Ctx, (∀ t, seed = some t → t.length ≠ k) →
        generate (mkChain k) g len seed rs = .error .indexError) ∧
      (s.length = k → len ≤ k → generate (mkChain k) g len (some s) rs = .ok s) ∧
      (s.length = k → k < len →
        generate (mkChain k) g len (some s) rs = .error .keyError) := by
  refine ⟨?_, ?_, ?_⟩
  · intro seed hseed
    simp [generate, chooseCtx_empty k (initRng g rs) seed hseed]
  · intro hs hlen
    rw [generate_short (mkChain k) g len (some s) rs hlen,
      chooseCtx_usable_seed (mkChain k) (initRng g rs) s hs]
    rfl
  · intro hs hlen
    rw [generate_usable_seed (mkChain k) g len s rs hs]
    obtain ⟨n, hn⟩ : ∃ n, len - k = n + 1 := ⟨len - k - 1, by omega⟩
    have hk : (mkChain k).order = k := rfl
    rw [hk, hn]
    simp [genLoop, alookup, mkChain]

/-- Witness for C4 amended: concrete untrained order-1 model — the
seedless call raises `IndexError`, the seeded call returns the seed at
`length = 1` and raises `KeyError` at `length = 2`. -/
theorem untrained_generate_behaviour_witness :
    generate (mkChain 1) 0 5 none (some 0) = .error .indexError ∧
      generate (mkChain 1) 0 1 (some ['a']) none = .ok ['a'] ∧
      generate (mkChain 1) 0 2 (some ['a']) none = .error .keyError :=
  ⟨(untrained_generate_behaviour 1 0 5 ['a'] (some 0)).1 none
      (fun t h => by cases h),
   (untrained_generate_behaviour 1 0 1 ['a'] none).2.1 rfl (by decide),
   (untrained_generate_behaviour 1 0 2 ['a'] none).2.2 rfl (by decide)⟩

/-- C8 counterexample: with `length = 1 < order = 2` on a trained
model, `generate` returns the full two-character initial context
`"ab"`, not the context clipped to one character (`"a"`): there is no
clipping in the code. -/
theorem no_clipping_below_order :
    generate { order := 2, transitions := [(['a', 'b'], [('c', 1)])] }
        0 1 (some ['a', 'b']) none = .ok ['a', 'b'] ∧
      ¬(['a', 'b'] = (['a', 'b'] : Ctx).take 1) := by
  exact ⟨rfl, by decide⟩

/-- C8 amended: with `length ≤ order`, `generate` runs zero walk
iterations and returns the selected initial context whole — of length
`order`, not clipped to `length`; in particular `length = order`
returns exactly the initial context, and a usable seed is returned
verbatim. -/
theorem short_length_returns_context (m : MarkovChain) (g : Rng)
    (len : Nat) (seed : Option Ctx) (rs : Option Int) (hlen : len ≤ m.order) :
    generate m g len seed rs =
        (chooseCtx m (initRng g rs) seed).map Prod.fst ∧
      (∀ s, seed = some s → s.length = m.order →
        generate m g len seed rs = .ok s) := by
  refine ⟨generate_short m g len seed rs hlen, ?_⟩
  intro s hseed hs
  subst hseed
  rw [generate_short m g len (some s) rs hlen,
    chooseCtx_usable_seed m (initRng g rs) s hs]
  rfl

/-- Witness for C8 amended: `generate(length=2)` on an order-2 model
with usable seed `"ab"` returns exactly `"ab"`, and `generate(length=1)`
returns the unclipped context. -/
theorem short_length_returns_context_witness :
    generate { order := 2, transitions := [(['a', 'b'], [('c', 1)])] }
        0 2 (some ['a', 'b']) none = .ok ['a', 'b'] ∧
      generate { order := 2, transitions := [(['a', 'b'], [('c', 1)])] }
        0 1 (some ['a', 'b']) none =
        (chooseCtx { order := 2, transitions := [(['a', 'b'], [('c', 1)])] }
          0 (some ['a', 'b'])).map Prod.fst :=
  ⟨(short_length_returns_context
      { order := 2, transitions := [(['a', 'b'], [('c', 1)])] }
      0 2 (some ['a', 'b']) none (by decide)).2 ['a', 'b'] rfl (by decide),
   (short_length_returns_context
      { order := 2, transitions := [(['a', 'b'], [('c', 1)])] }
      0 1 (some ['a', 'b']) none (by decide)).1⟩

/-- C7 counterexample: the supplied seed `"z"` has the right length but
is not a key of the table; the claim says it is treated as absent (a
random key becomes the start and the call cannot fail), yet the code
uses it verbatim and the call fails with a `KeyError`, while the
seedless call succeeds. -/
theorem seed_not_in_table_used :
    generate { order := 1, transitions := [(['a'], [('b', 1)])] }
        0 2 (some ['z']) (some 0) = .error .keyError ∧
      generate { order := 1, transitions := [(['a'], [('b', 1)])] }
        0 2 none (some 0) = .ok ['a', 'b'] :=
  ⟨rfl, rfl⟩

/-- C7 amended: a seed whose length equals `order` is used verbatim as
the starting context with no table-membership check (so a call with an
absent length-`order` seed can fail with `KeyError` once a character
must be generated), and when generation succeeds that seed forms the
first `order` characters of the output; a seed of any other length is
treated exactly like a missing seed, with the start chosen at random
among the table keys. -/
theorem seed_handling (m : MarkovChain) (g : Rng) (len : Nat) (s : Ctx)
    (rs : Option Int) :
    (s.length ≠ m.order →
        generate m g len (some s) rs = generate m g len none rs) ∧
      (s.length = m.order →
        generate m g len (some s) rs =
          genLoop m (len - m.order) s s (initRng g rs)) ∧
      (s.length = m.order → ∀ out,
        generate m g len (some s) rs = .ok out → out.take m.order = s) := by
  refine ⟨?_, ?_, ?_⟩
  · intro hs
    simp [generate, chooseCtx_unusable_seed m (initRng g rs) s hs]
  · intro hs
    exact generate_usable_seed m g len s rs hs
  · intro hs out hout
    rw [generate_usable_seed m g len s rs hs] at hout
    have hp := genLoop_take m (len - m.order) s s (initRng g rs) out hout
    rw [← hs]
    exact hp

/-- Witness for C7 amended: on a concrete model, the wrong-length seed
`"zz"` behaves exactly like no seed, and the usable seed `"a"` is the
first character of the successful output. -/
theorem seed_handling_witness :
    generate { order := 1, transitions := [(['a'], [('b', 1)])] }
        0 2 (some ['z', 'z']) (some 0) =
      generate { order := 1, transitions := [(['a'], [('b', 1)])] }
        0 2 none (some 0) ∧
      (['a', 'b'] : List Char).take 1 = ['a'] :=
  ⟨(seed_handling { order := 1, transitions := [(['a'], [('b', 1)])] }
      0 2 ['z', 'z'] (some 0)).1 (by decide),
   (seed_handling { order := 1, transitions := [(['a'], [('b', 1)])] }
      0 2 ['a'] (some 0)).2.2 (by decide) ['a', 'b'] rfl⟩

/-- Helper: the total weight of a nonempty head row. -/
theorem rowTotal_cons (c : Char) (w : Nat) (rest : Row) :
    rowTotal ((c, w) :: rest) = w + rowTotal rest := by
  simp [rowTotal]

/-- A draw below the total weight always selects one of the recorded
candidate characters. -/
theorem weightedPick_mem :
    ∀ (row : Row) (r : Nat), r < rowTotal row →
      weightedPick row r ∈ row.map Prod.fst := by
  intro row
  induction row with
  | nil => intro r hr; simp [rowTotal] at hr
  | cons p rest ih =>
    obtain ⟨c, w⟩ := p
    intro r hr
    rw [rowTotal_cons] at hr
    simp only [weightedPick]
    by_cases h : r < w
    · simp [h]
    · rw [if_neg h]
      simp only [List.map_cons, List.mem_cons]
      exact Or.inr (ih (r - w) (by omega))

/-- The counting heart of the weighted-sampling rule: among the
`rowTotal row` equiprobable draws, exactly `w` select the candidate
recorded with count `w`. -/
theorem weightedPick_count :
    ∀ (row : Row), (row.map Prod.fst).Nodup → ∀ (ch : Char) (w : Nat),
      (ch, w) ∈ row →
      ((List.range (rowTotal row)).filter
        (fun r => weightedPick row r = ch)).length = w := by
  intro row
  induction row with
  | nil => intro _ ch w h; cases h
  | cons p rest ih =>
    obtain ⟨c, wc⟩ := p
    intro hnd ch w hmem
    have hnd2 : (rest.map Prod.fst).Nodup := (List.nodup_cons.mp hnd).2
    have hcnot : c ∉ rest.map Prod.fst := (List.nodup_cons.mp hnd).1
    rw [rowTotal_cons, List.range_add, List.filter_append, List.length_append]
    have seg2 : ((List.map (fun x => wc + x) (List.range (rowTotal rest))).filter
        (fun r => weightedPick ((c, wc) :: rest) r = ch)).length =
        ((List.range (rowTotal rest)).filter
          (fun r => weightedPick rest r = ch)).length := by
      rw [← List.countP_eq_length_filter, List.countP_map,
        ← List.countP_eq_length_filter]
      apply List.countP_congr
      intro r _
      simp only [Function.comp]
      have h1 : ¬(wc + r < wc) := by omega
      simp [weightedPick, h1]
    rw [seg2]
    by_cases hc : c = ch
    · subst hc
      have hw : w = wc := by
        rcases List.mem_cons.mp hmem with h | h
        · simpa using congrArg Prod.snd h
        · exact absurd (List.mem_map_of_mem Prod.fst h) hcnot
      subst hw
      have seg1 : ((List.range w).filter
          (fun r => weightedPick ((c, w) :: rest) r = c)).length = w := by
        rw [List.filter_eq_self.mpr, List.length_range]
        intro r hr
        rw [List.mem_range] at hr
        simp [weightedPick, hr]
      have seg3 : ((List.range (rowTotal rest)).filter
          (fun r => weightedPick rest r = c)).length = 0 := by
        rw [List.length_eq_zero, List.filter_eq_nil_iff]
        intro r hr
        rw [List.mem_range] at hr
        simp only [decide_eq_true_eq]
        intro hpick
        exact hcnot (hpick ▸ weightedPick_mem rest r hr)
      rw [seg1, seg3]
      omega
    · have hmem2 : (ch, w) ∈ rest := by
        rcases List.mem_cons.mp hmem with h | h
        · exact absurd (congrArg Prod.fst h).symm hc
        · exact h
      have seg1 : ((List.range wc).filter
          (fun r => weightedPick ((c, wc) :: rest) r = ch)).length = 0 := by
        rw [List.length_eq_zero, List.filter_eq_nil_iff]
        intro r hr
        rw [List.mem_range] at hr
        simp [weightedPick, hr, hc]
      rw [seg1, ih hnd2 ch w hmem2]
      omega

/-- C5: the generation walk samples each next character from the
current context's recorded distribution weighted by occurrence count:
one step of the walk draws `r` uniformly below the total count of the
row and appends `weightedPick row r`, and for each recorded candidate
exactly `count` of the `rowTotal row` possible draws select it — its
probability is `count / sum of counts`, not uniform over the candidate
set. -/
theorem weighted_sampling_rule (row : Row) (ch : Char) (w : Nat)
    (m : MarkovChain) (n : Nat) (res : List Char) (ctx : Ctx) (g : Rng)
    (hnd : (row.map Prod.fst).Nodup) (hmem : (ch, w) ∈ row)
    (hrow : alookup m.transitions ctx = some row) (hnil : row ≠ [])
    (htot : rowTotal row ≠ 0) :
    ((List.range (rowTotal row)).filter
        (fun r => weightedPick row r = ch)).length = w ∧
      genLoop m (n + 1) res ctx g =
        genLoop m n
          (res ++ [weightedPick row (randBelow g (rowTotal row)).1])
          (sliceLast m.order
            (res ++ [weightedPick row (randBelow g (rowTotal row)).1]))
          (randBelow g (rowTotal row)).2 := by
  constructor
  · exact weightedPick_count row hnd ch w hmem
  · simp [genLoop, hrow, hnil, htot]

/-- Witness for C5: in the row `{a: 2, b: 1}` (total 3), exactly two of
the three draws select `a`, and one concrete walk step consumes one
draw and appends the weighted pick. -/
theorem weighted_sampling_rule_witness :
    ((List.range (rowTotal [('a', 2), ('b', 1)])).filter
        (fun r => weightedPick [('a', 2), ('b', 1)] r = 'a')).length = 2 ∧
      genLoop { order := 1, transitions := [(['a'], [('a', 2), ('b', 1)])] }
          1 ['a'] ['a'] 0 =
        genLoop { order := 1, transitions := [(['a'], [('a', 2), ('b', 1)])] }
          0
          (['a'] ++ [weightedPick [('a', 2), ('b', 1)]
            (randBelow 0 (rowTotal [('a', 2), ('b', 1)])).1])
          (sliceLast 1 (['a'] ++ [weightedPick [('a', 2), ('b', 1)]
            (randBelow 0 (rowTotal [('a', 2), ('b', 1)])).1]))
          (randBelow 0 (rowTotal [('a', 2), ('b', 1)])).2 :=
  weighted_sampling_rule [('a', 2), ('b', 1)] 'a' 2
    { order := 1, transitions := [(['a'], [('a', 2), ('b', 1)])] }
    0 ['a'] ['a'] 0 (by decide) (by decide) (by decide) (by decide) (by decide)

/-- C6 counterexample: on a model with a non-empty transition table,
a walk that reaches the dead-end context `"b"` raises a `KeyError`
instead of truncating: `generate` does not return a shortened string. -/
theorem generate_dead_end_keyerror :
    generate { order := 1, transitions := [(['a'], [('b', 1)])] }
        0 3 (some ['a']) (some 0) = .error .keyError ∧
      ({ order := 1, transitions := [(['a'], [('b', 1)])] } :
        MarkovChain).transitions ≠ [] :=
  ⟨rfl, by decide⟩

/-- C6 amended: for every model whose table keys all have length
`order` (every trained model), `generate` terminates, but a dead end is
a raised `KeyError`, not a silent truncation: every call either fails
with an error or returns a string of exactly `max order length`
characters — never a properly truncated one, and more than `length`
characters when `length < order`. -/
theorem generate_result_length (m : MarkovChain) (g : Rng) (len : Nat)
    (seed : Option Ctx) (rs : Option Int)
    (hkeys : ∀ c ∈ m.transitions.map Prod.fst, c.length = m.order) :
    resultLenOk (generate m g len seed rs) (max m.order len) = true := by
  cases h : chooseCtx m (initRng g rs) seed with
  | error e => simp [resultLenOk, generate, h]
  | ok p =>
    obtain ⟨ctx, g1⟩ := p
    have hctx : ctx.length = m.order := by
      rcases chooseCtx_ok_cases m (initRng g rs) seed ctx g1 h with ⟨_, hl⟩ | hmem
      · exact hl
      · exact hkeys ctx hmem
    simp only [generate, h]
    cases hout : genLoop m (len - m.order) ctx ctx g1 with
    | error e => simp [resultLenOk, hout]
    | ok out =>
      have hlen := genLoop_length m (len - m.order) ctx ctx g1 out hout
      simp only [resultLenOk, hout, beq_iff_eq]
      rw [hlen, hctx]
      omega

/-- Witness for C6 amended: a concrete self-looping model generates a
full-length result (`max 1 4 = 4` characters), and the concrete
dead-end model yields an error rather than a short string — both pass
the length check. -/
theorem generate_result_length_witness :
    resultLenOk
        (generate { order := 1, transitions := [(['a'], [('a', 1)])] }
          0 4 none (some 0)) (max 1 4) = true ∧
      resultLenOk
        (generate { order := 1, transitions := [(['a'], [('b', 1)])] }
          0 3 (some ['a']) (some 0)) (max 1 3) = true :=
  ⟨generate_result_length { order := 1, transitions := [(['a'], [('a', 1)])] }
      0 4 none (some 0) (by decide),
   generate_result_length { order := 1, transitions := [(['a'], [('b', 1)])] }
      0 3 (some ['a']) (some 0) (by decide)⟩

/-- Helper: the two wire-format keys differ. -/
theorem orderKey_ne_transKey : orderKey ≠ transKey := by decide

/-- Decoding inverts the encoding of one counter `dict`. -/
theorem decodeRow_encodeRow (row : Row) :
    decodeRow (row.map (fun p => ([p.1], PyVal.int p.2))) = some row := by
  induction row with
  | nil => rfl
  | cons p rest ih =>
    obtain ⟨ch, n⟩ := p
    simp [decodeRow, ih, Int.toNat_natCast]

/-- Decoding inverts the encoding of a transition table. -/
theorem decodeTable_encodeTable (tbl : Table) :
    decodeTable (tbl.map (fun p => (p.1, encodeRow p.2))) = some tbl := by
  induction tbl with
  | nil => rfl
  | cons p rest ih =>
    obtain ⟨c, row⟩ := p
    have henc : encodeRow row =
        PyVal.pydict (row.map (fun p => ([p.1], PyVal.int p.2))) := rfl
    simp only [List.map_cons, henc, decodeTable, decodeRow_encodeRow row, ih]
    rfl

/-- C3: serialization round-trip.  For every model (orders are `≥ 1` for
every constructible model), `from_dict (to_dict m)` succeeds and returns
an object carrying exactly `m`'s order and the encoding of `m`'s
transition table; read back as a typed model it is exactly `m`, and any
model it decodes to is observationally identical — `generate` agrees on
all arguments, including the random seeding. -/
theorem serialization_round_trip (m : MarkovChain) (hm : 1 ≤ m.order) :
    from_dict (to_dict m) =
        .ok { order := (m.order : Int), transitions := encodeTable m.transitions } ∧
      rawToChain
        { order := (m.order : Int), transitions := encodeTable m.transitions } =
        some m ∧
      (∀ m', rawToChain
          { order := (m.order : Int), transitions := encodeTable m.transitions } =
          some m' →
        ∀ (g : Rng) (len : Nat) (s : Option Ctx) (rs : Option Int),
          generate m' g len s rs = generate m g len s rs) := by
  have h0 : ¬((m.order : Int) ≤ 0) := by omega
  have h1 : (1 : Int) ≤ (m.order : Int) := by omega
  have hraw : rawToChain
      { order := (m.order : Int), transitions := encodeTable m.transitions } =
      some m := by
    have henc : encodeTable m.transitions =
        PyVal.pydict (m.transitions.map (fun p => (p.1, encodeRow p.2))) := rfl
    simp only [rawToChain, if_pos h1, henc, decodeTable_encodeTable]
    rfl
  refine ⟨?_, hraw, ?_⟩
  · simp [from_dict, to_dict, dictGet, alookup, orderKey_ne_transKey, h0]
  · intro m' hm' g len s rs
    rw [hraw] at hm'
    cases hm'
    rfl

/-- Witness for C3: the round trip on a concrete trained order-1 model
reproduces it exactly. -/
theorem serialization_round_trip_witness :
    from_dict (to_dict { order := 1, transitions := [(['a'], [('b', 1)])] }) =
      .ok { order := (1 : Int),
            transitions :=
              encodeTable [(['a'], [('b', 1)])] } :=
  (serialization_round_trip
    { order := 1, transitions := [(['a'], [('b', 1)])] } (by decide)).1

/-- C10 counterexample: `from_dict` is claimed to fail with a
`MalformedModel` condition whenever `transitions` is not a
mapping-of-mappings-of-integers, but the code performs no validation of
that field: an integer `transitions` value is accepted and returned
as-is in the model object. -/
theorem from_dict_accepts_garbage_transitions :
    from_dict (.pydict [(orderKey, .int 1), (transKey, .int 5)]) =
      .ok { order := 1, transitions := PyVal.int 5 } := rfl

/-- C10 amended: `from_dict` fails with a `KeyError` when `order` (or
`transitions`) is missing and a `TypeError` when `order` is not an
integer, and additionally — beyond the claim — a `ValueError` when the
integer order is `≤ 0`; the `transitions` value itself is assigned with
no shape validation at all, so for any input carrying an integer
`order ≥ 1` and any `transitions` value whatsoever the call succeeds
and returns exactly those two fields.  Nothing half-built is returned on
failure. -/
theorem from_dict_validation (es : List (List Char × PyVal)) (n : Int)
    (t : PyVal) :
    (alookup es orderKey = none →
        from_dict (.pydict es) = .error .keyError) ∧
      (∀ o, alookup es orderKey = some o → (∀ i : Int, o ≠ .int i) →
        from_dict (.pydict es) = .error .typeError) ∧
      from_dict (.pydict [(orderKey, .int n), (transKey, t)]) =
        (if n ≤ 0 then .error .valueError
         else .ok { order := n, transitions := t }) := by
  refine ⟨?_, ?_, ?_⟩
  · intro h
    simp [from_dict, dictGet, h]
  · intro o h hnotint
    cases o with
    | int i => exact absurd rfl (hnotint i)
    | str s => simp [from_dict, dictGet, h]
    | pydict d => simp [from_dict, dictGet, h]
  · by_cases hn : n ≤ 0
    · simp [from_dict, dictGet, alookup, hn]
    · simp [from_dict, dictGet, alookup, hn, orderKey_ne_transKey]

/-- Witness for C10 amended: missing `order` raises `KeyError`, a
string `order` raises `TypeError`, `order = 0` raises `ValueError`, and
an unvalidated integer `transitions` with `order = 1` is accepted. -/
theorem from_dict_validation_witness :
    from_dict (.pydict []) = .error .keyError ∧
      from_dict (.pydict [(orderKey, .str ['x'])]) = .error .typeError ∧
      from_dict (.pydict [(orderKey, .int 0), (transKey, .int 5)]) =
        .error .valueError ∧
      from_dict (.pydict [(orderKey, .int 1), (transKey, .int 5)]) =
        .ok { order := 1, transitions := PyVal.int 5 } := by
  refine ⟨(from_dict_validation [] 1 (.int 5)).1 rfl,
    (from_dict_validation [(orderKey, .str ['x'])] 1 (.int 5)).2.1
      (.str ['x']) rfl (fun i h => by cases h),
    ?_, ?_⟩
  · have h := (from_dict_validation [] 0 (.int 5)).2.2
    rw [h]
    rfl
  · have h := (from_dict_validation [] 1 (.int 5)).2.2
    rw [h]
    rfl

/-- Helper: an association-list key is found exactly when it occurs
among the keys. -/
theorem alookup_isSome_iff_mem {κ α : Type} [DecidableEq κ]
    (l : List (κ × α)) (key : κ) :
    (alookup l key).isSome = true ↔ key ∈ l.map Prod.fst := by
  induction l with
  | nil => simp [alookup]
  | cons p rest ih =>
    obtain ⟨k, v⟩ := p
    by_cases h : k = key
    · subst h
      simp [alookup]
    · simp [alookup, h, ih, Ne.symm h]

/-- Effect of one inner-dict bump on a recorded count. -/
theorem bumpRow_count (row : Row) (c' ch : Char) :
    (alookup (bumpRow row c') ch).getD 0 =
      (alookup row ch).getD 0 + (if c' = ch then 1 else 0) := by
  induction row with
  | nil =>
    by_cases h : c' = ch <;> simp [bumpRow, alookup, h]
  | cons p rest ih =>
    obtain ⟨a, n⟩ := p
    by_cases hac : a = c'
    · subst hac
      by_cases hach : a = ch <;> simp [bumpRow, alookup, hach]
    · by_cases hach : a = ch
      · subst hach
        have : ¬(c' = a) := fun h => hac h.symm
        simp [bumpRow, alookup, hac, this]
      · simp [bumpRow, alookup, hac, hach, ih]

/-- Effect of one inner-dict bump on inner-key presence. -/
theorem bumpRow_present (row : Row) (c' ch : Char) :
    (alookup (bumpRow row c') ch).isSome = true ↔
      (alookup row ch).isSome = true ∨ c' = ch := by
  induction row with
  | nil =>
    by_cases h : c' = ch <;> simp [bumpRow, alookup, h]
  | cons p rest ih =>
    obtain ⟨a, n⟩ := p
    by_cases hac : a = c'
    · subst hac
      by_cases hach : a = ch <;> simp [bumpRow, alookup, hach]
    · by_cases hach : a = ch
      · subst hach
        simp [bumpRow, alookup, hac]
      · simp [bumpRow, alookup, hac, hach, ih]

/-- Unfolding of `tableCount` over a table head. -/
theorem tableCount_cons (k : Ctx) (row : Row) (rest : Table) (c : Ctx)
    (ch : Char) :
    tableCount ((k, row) :: rest) c ch =
      if k = c then (alookup row ch).getD 0 else tableCount rest c ch := by
  by_cases h : k = c
  · simp only [tableCount, alookup, if_pos h]
    cases alookup row ch <;> simp
  · simp only [tableCount, alookup, if_neg h]

/-- Unfolding of `pairPresent` over a table head. -/
theorem pairPresent_cons (k : Ctx) (row : Row) (rest : Table) (c : Ctx)
    (ch : Char) :
    pairPresent ((k, row) :: rest) c ch =
      if k = c then (alookup row ch).isSome else pairPresent rest c ch := by
  by_cases h : k = c
  · simp [pairPresent, alookup, h]
  · simp [pairPresent, alookup, h]

/-- Helper: `tableCount` on an empty-table head. -/
theorem tableCount_nil (c : Ctx) (ch : Char) : tableCount [] c ch = 0 := rfl

/-- Effect of one table bump on a recorded count. -/
theorem bumpTable_count (tbl : Table) (c' : Ctx) (ch' : Char) (c : Ctx)
    (ch : Char) :
    tableCount (bumpTable tbl c' ch') c ch =
      tableCount tbl c ch + (if c' = c ∧ ch' = ch then 1 else 0) := by
  induction tbl with
  | nil =>
    by_cases hc : c' = c
    · subst hc
      by_cases hch : ch' = ch <;>
        simp [bumpTable, tableCount_cons, tableCount_nil, alookup, hch]
    · simp [bumpTable, tableCount_cons, tableCount_nil, hc]
  | cons p rest ih =>
    obtain ⟨k, row⟩ := p
    by_cases hkc : k = c'
    · subst hkc
      by_cases hkcc : k = c
      · subst hkcc
        simp [bumpTable, tableCount_cons, bumpRow_count]
      · simp [bumpTable, tableCount_cons, hkcc]
    · by_cases hkcc : k = c
      · subst hkcc
        have : ¬(c' = k) := fun h => hkc h.symm
        simp [bumpTable, tableCount_cons, hkc, this]
      · simp [bumpTable, tableCount_cons, hkc, hkcc, ih]

/-- Helper: `pairPresent` on the empty table. -/
theorem pairPresent_nil (c : Ctx) (ch : Char) : pairPresent [] c ch = false := rfl

/-- Effect of one table bump on pair presence. -/
theorem bumpTable_pairPresent (tbl : Table) (c' : Ctx) (ch' : Char)
    (c : Ctx) (ch : Char) :
    pairPresent (bumpTable tbl c' ch') c ch = true ↔
      pairPresent tbl c ch = true ∨ (c' = c ∧ ch' = ch) := by
  induction tbl with
  | nil =>
    by_cases hc : c' = c
    · subst hc
      by_cases hch : ch' = ch <;>
        simp [bumpTable, pairPresent_cons, pairPresent_nil, alookup, hch]
    · simp [bumpTable, pairPresent_cons, pairPresent_nil, alookup, hc]
  | cons p rest ih =>
    obtain ⟨k, row⟩ := p
    by_cases hkc : k = c'
    · subst hkc
      by_cases hkcc : k = c
      · subst hkcc
        simp [bumpTable, pairPresent_cons, bumpRow_present]
      · simp [bumpTable, pairPresent_cons, hkcc]
    · by_cases hkcc : k = c
      · subst hkcc
        have : ¬(c' = k) := fun h => hkc h.symm
        simp [bumpTable, pairPresent_cons, hkc, this]
      · simp [bumpTable, pairPresent_cons, hkc, hkcc, ih]

/-- Effect of one table bump on the key set. -/
theorem bumpTable_keys (tbl : Table) (c' : Ctx) (ch' : Char) (c : Ctx) :
    c ∈ (bumpTable tbl c' ch').map Prod.fst ↔
      c ∈ tbl.map Prod.fst ∨ c = c' := by
  induction tbl with
  | nil => simp [bumpTable]
  | cons p rest ih =>
    obtain ⟨k, row⟩ := p
    by_cases hkc : k = c'
    · subst hkc
      have hb : bumpTable ((k, row) :: rest) k ch' = (k, bumpRow row ch') :: rest := by
        simp [bumpTable]
      rw [hb]
      simp only [List.map_cons, List.mem_cons]
      tauto
    · have hb : bumpTable ((k, row) :: rest) c' ch' =
          (k, row) :: bumpTable rest c' ch' := by
        simp [bumpTable, hkc]
      rw [hb]
      simp only [List.map_cons, List.mem_cons, ih]
      tauto

/-- Count after folding a list of bump operations: the initial count
plus the number of indices whose window/next pair matches. -/
theorem foldl_bump_count (win : Nat → Ctx) (nxt : Nat → Char) :
    ∀ (l : List Nat) (tbl : Table) (c : Ctx) (ch : Char),
      tableCount (l.foldl (fun tb i => bumpTable tb (win i) (nxt i)) tbl) c ch =
        tableCount tbl c ch +
          (l.filter (fun i => win i = c ∧ nxt i = ch)).length := by
  intro l
  induction l with
  | nil => intro tbl c ch; simp
  | cons i l ih =>
    intro tbl c ch
    rw [List.foldl_cons, ih, bumpTable_count, List.filter_cons]
    by_cases hp : win i = c ∧ nxt i = ch
    · simp [hp]
      omega
    · simp [hp]

/-- Pair presence after folding a list of bump operations. -/
theorem foldl_bump_pairPresent (win : Nat → Ctx) (nxt : Nat → Char) :
    ∀ (l : List Nat) (tbl : Table) (c : Ctx) (ch : Char),
      pairPresent (l.foldl (fun tb i => bumpTable tb (win i) (nxt i)) tbl) c ch = true ↔
        pairPresent tbl c ch = true ∨ ∃ i ∈ l, win i = c ∧ nxt i = ch := by
  intro l
  induction l with
  | nil => intro tbl c ch; simp
  | cons i l ih =>
    intro tbl c ch
    rw [List.foldl_cons, ih, bumpTable_pairPresent]
    simp only [List.mem_cons]
    constructor
    · rintro ((h | h) | ⟨j, hj, hpj⟩)
      · exact Or.inl h
      · exact Or.inr ⟨i, Or.inl rfl, h⟩
      · exact Or.inr ⟨j, Or.inr hj, hpj⟩
    · rintro (h | ⟨j, hj | hj, hpj⟩)
      · exact Or.inl (Or.inl h)
      · exact Or.inl (Or.inr (hj ▸ hpj))
      · exact Or.inr ⟨j, hj, hpj⟩

/-- Key membership after folding a list of bump operations. -/
theorem foldl_bump_keys (win : Nat → Ctx) (nxt : Nat → Char) :
    ∀ (l : List Nat) (tbl : Table) (c : Ctx),
      c ∈ (l.foldl (fun tb i => bumpTable tb (win i) (nxt i)) tbl).map Prod.fst ↔
        c ∈ tbl.map Prod.fst ∨ ∃ i ∈ l, win i = c := by
  intro l
  induction l with
  | nil => intro tbl c; simp
  | cons i l ih =>
    intro tbl c
    rw [List.foldl_cons, ih, bumpTable_keys]
    simp only [List.mem_cons]
    constructor
    · rintro ((h | h) | ⟨j, hj, hpj⟩)
      · exact Or.inl h
      · exact Or.inr ⟨i, Or.inl rfl, h.symm⟩
      · exact Or.inr ⟨j, Or.inr hj, hpj⟩
    · rintro (h | ⟨j, hj | hj, hpj⟩)
      · exact Or.inl (Or.inl h)
      · exact Or.inl (Or.inr (hj ▸ hpj).symm)
      · exact Or.inr ⟨j, hj, hpj⟩

/-- Bridge between the in-bounds `getD` access used by the total
embedding of `train` and the `Option`-valued access of the spec-side
counter. -/
theorem filter_getD_eq_specOcc (k : Nat) (text : List Char) (c : Ctx)
    (ch : Char) :
    ((List.range (text.length - k)).filter
      (fun i => (text.drop i).take k = c ∧ text.getD (i + k) ' ' = ch)).length =
      specOcc k text c ch := by
  unfold specOcc
  congr 1
  apply List.filter_congr
  intro i hi
  rw [List.mem_range] at hi
  have hlt : i + k < text.length := by omega
  rw [List.getD_eq_get?, List.get?_eq_get hlt]
  simp

/-- Count accounting for one `train` call. -/
theorem train_tableCount (m : MarkovChain) (text : List Char) (c : Ctx)
    (ch : Char) :
    tableCount (train m text).transitions c ch =
      tableCount m.transitions c ch + specOcc m.order text c ch := by
  unfold train
  rw [foldl_bump_count (fun i => (text.drop i).take m.order)
    (fun i => text.getD (i + m.order) ' ') (List.range (text.length - m.order))
    m.transitions c ch]
  rw [filter_getD_eq_specOcc]

/-- Pair presence accounting for one `train` call. -/
theorem train_pairPresent (m : MarkovChain) (text : List Char) (c : Ctx)
    (ch : Char) :
    pairPresent (train m text).transitions c ch = true ↔
      pairPresent m.transitions c ch = true ∨ 0 < specOcc m.order text c ch := by
  unfold train
  rw [foldl_bump_pairPresent (fun i => (text.drop i).take m.order)
    (fun i => text.getD (i + m.order) ' ') (List.range (text.length - m.order))
    m.transitions c ch]
  rw [← filter_getD_eq_specOcc m.order text c ch]
  constructor
  · rintro (h | ⟨i, hi, hw, hn⟩)
    · exact Or.inl h
    · refine Or.inr ?_
      rw [List.length_pos, Ne, List.filter_eq_nil_iff]
      push_neg
      refine ⟨i, hi, ?_⟩
      simp only [hw, true_and, decide_eq_true_eq]
      exact hn
  · rintro (h | hpos)
    · exact Or.inl h
    · rw [List.length_pos, Ne, List.filter_eq_nil_iff] at hpos
      push_neg at hpos
      obtain ⟨i, hi, hp⟩ := hpos
      simp only [decide_eq_true_eq] at hp
      exact Or.inr ⟨i, hi, hp⟩

/-- Outer-key presence accounting for one `train` call. -/
theorem train_ctxPresent (m : MarkovChain) (text : List Char) (c : Ctx) :
    (alookup (train m text).transitions c).isSome = true ↔
      (alookup m.transitions c).isSome = true ∨
        0 < specCtxOcc m.order text c := by
  rw [alookup_isSome_iff_mem, alookup_isSome_iff_mem]
  unfold train
  rw [foldl_bump_keys (fun i => (text.drop i).take m.order)
    (fun i => text.getD (i + m.order) ' ') (List.range (text.length - m.order))
    m.transitions c]
  unfold specCtxOcc
  constructor
  · rintro (h | ⟨i, hi, hw⟩)
    · exact Or.inl h
    · refine Or.inr ?_
      rw [List.length_pos, Ne, List.filter_eq_nil_iff]
      push_neg
      exact ⟨i, hi, by simp [hw]⟩
  · rintro (h | hpos)
    · exact Or.inl h
    · rw [List.length_pos, Ne, List.filter_eq_nil_iff] at hpos
      push_neg at hpos
      obtain ⟨i, hi, hp⟩ := hpos
      simp only [decide_eq_true_eq] at hp
      exact Or.inr ⟨i, hi, hp⟩

/-- Keys arising from one `train` call have the model's order as
length. -/
theorem train_keys_length (m : MarkovChain) (text : List Char) (c : Ctx)
    (hc : c ∈ (train m text).transitions.map Prod.fst) :
    c ∈ m.transitions.map Prod.fst ∨ c.length = m.order := by
  unfold train at hc
  rw [foldl_bump_keys (fun i => (text.drop i).take m.order)
    (fun i => text.getD (i + m.order) ' ') (List.range (text.length - m.order))
    m.transitions c] at hc
  rcases hc with h | ⟨i, hi, hw⟩
  · exact Or.inl h
  · refine Or.inr ?_
    rw [List.mem_range] at hi
    rw [← hw]
    simp only [List.length_take, List.length_drop]
    omega

/-- Training never raises: the explicitly-checked embedding of the
training loop always succeeds and agrees with the total one, because
every accessed index `i + order` lies inside the text. -/
theorem trainChecked_eq (m : MarkovChain) (text : List Char) :
    trainChecked m text = some (train m text) := by
  have key : ∀ (l : List Nat), (∀ i ∈ l, i + m.order < text.length) →
      ∀ tbl : Table,
        List.foldlM (fun tb i => (text.get? (i + m.order)).map
          (fun ch => bumpTable tb ((text.drop i).take m.order) ch)) tbl l =
        some (List.foldl (fun tb i =>
          bumpTable tb ((text.drop i).take m.order)
            (text.getD (i + m.order) ' ')) tbl l) := by
    intro l
    induction l with
    | nil => intro _ tbl; rfl
    | cons i l ih =>
      intro hb tbl
      have hlt : i + m.order < text.length := hb i (List.mem_cons_self i l)
      have hget : text.get? (i + m.order) = some (text.get ⟨i + m.order, hlt⟩) :=
        List.get?_eq_get hlt
      have hgetD : text.getD (i + m.order) ' ' = text.get ⟨i + m.order, hlt⟩ :=
        List.getD_eq_get text ' ' hlt
      rw [List.foldlM_cons, hget, List.foldl_cons, hgetD]
      have hb2 : ∀ j ∈ l, j + m.order < text.length :=
        fun j hj => hb j (List.mem_cons_of_mem i hj)
      exact ih hb2 _
  unfold trainChecked train
  rw [key (List.range (text.length - m.order))
    (fun i hi => by rw [List.mem_range] at hi; omega) m.transitions]
  rfl

/-- A text shorter than `order + 1` characters yields an empty index
range: `train` changes nothing. -/
theorem train_short (m : MarkovChain) (t : List Char)
    (h : t.length < m.order + 1) : train m t = m := by
  have h0 : t.length - m.order = 0 := by omega
  simp [train, h0]

/-- Training preserves the model order through any call sequence. -/
theorem foldl_train_order :
    ∀ (texts : List (List Char)) (m : MarkovChain),
      (texts.foldl train m).order = m.order := by
  intro texts
  induction texts with
  | nil => intro m; rfl
  | cons t ts ih =>
    intro m
    rw [List.foldl_cons, ih, train_order]

/-- Count accounting across a sequence of `train` calls. -/
theorem foldl_train_count :
    ∀ (texts : List (List Char)) (m : MarkovChain) (c : Ctx) (ch : Char),
      tableCount (texts.foldl train m).transitions c ch =
        tableCount m.transitions c ch +
          (texts.map (fun t => specOcc m.order t c ch)).sum := by
  intro texts
  induction texts with
  | nil => intro m c ch; simp
  | cons t ts ih =>
    intro m c ch
    rw [List.foldl_cons, ih, train_tableCount, List.map_cons, List.sum_cons]
    simp only [train_order]
    omega

/-- Pair presence across a sequence of `train` calls. -/
theorem foldl_train_pairPresent :
    ∀ (texts : List (List Char)) (m : MarkovChain) (c : Ctx) (ch : Char),
      pairPresent (texts.foldl train m).transitions c ch = true ↔
        pairPresent m.transitions c ch = true ∨
          ∃ t ∈ texts, 0 < specOcc m.order t c ch := by
  intro texts
  induction texts with
  | nil => intro m c ch; simp
  | cons t ts ih =>
    intro m c ch
    rw [List.foldl_cons, ih, train_pairPresent]
    simp only [train_order, List.mem_cons]
    constructor
    · rintro ((h | h) | ⟨u, hu, hp⟩)
      · exact Or.inl h
      · exact Or.inr ⟨t, Or.inl rfl, h⟩
      · exact Or.inr ⟨u, Or.inr hu, hp⟩
    · rintro (h | ⟨u, hu | hu, hp⟩)
      · exact Or.inl (Or.inl h)
      · exact Or.inl (Or.inr (hu ▸ hp))
      · exact Or.inr ⟨u, hu, hp⟩

/-- Context presence across a sequence of `train` calls. -/
theorem foldl_train_ctx :
    ∀ (texts : List (List Char)) (m : MarkovChain) (c : Ctx),
      (alookup (texts.foldl train m).transitions c).isSome = true ↔
        (alookup m.transitions c).isSome = true ∨
          ∃ t ∈ texts, 0 < specCtxOcc m.order t c := by
  intro texts
  induction texts with
  | nil => intro m c; simp
  | cons t ts ih =>
    intro m c
    rw [List.foldl_cons, ih, train_ctxPresent]
    simp only [train_order, List.mem_cons]
    constructor
    · rintro ((h | h) | ⟨u, hu, hp⟩)
      · exact Or.inl h
      · exact Or.inr ⟨t, Or.inl rfl, h⟩
      · exact Or.inr ⟨u, Or.inr hu, hp⟩
    · rintro (h | ⟨u, hu | hu, hp⟩)
      · exact Or.inl (Or.inl h)
      · exact Or.inl (Or.inr (hu ▸ hp))
      · exact Or.inr ⟨u, hu, hp⟩

/-- Key lengths across a sequence of `train` calls. -/
theorem foldl_train_keys :
    ∀ (texts : List (List Char)) (m : MarkovChain),
      (∀ c ∈ m.transitions.map Prod.fst, c.length = m.order) →
      ∀ c ∈ (texts.foldl train m).transitions.map Prod.fst,
        c.length = m.order := by
  intro texts
  induction texts with
  | nil => intro m h; exact h
  | cons t ts ih =>
    intro m h c hc
    rw [List.foldl_cons] at hc
    have h2 : ∀ x ∈ (train m t).transitions.map Prod.fst,
        x.length = (train m t).order := by
      intro x hx
      rcases train_keys_length m t x hx with hmem | hlen
      · exact h x hmem
      · exact hlen
    exact ih (train m t) h2 c hc

/-- Helper: a sum of naturals over a list is positive exactly when some
element contributes a positive value. -/
theorem sum_map_pos {α : Type} (f : α → Nat) (l : List α) :
    0 < (l.map f).sum ↔ ∃ a ∈ l, 0 < f a := by
  induction l with
  | nil => simp
  | cons a l ih =>
    simp only [List.map_cons, List.sum_cons, List.mem_cons]
    constructor
    · intro h
      by_cases ha : 0 < f a
      · exact ⟨a, Or.inl rfl, ha⟩
      · have hl : 0 < (l.map f).sum := by omega
        obtain ⟨b, hb, hfb⟩ := ih.mp hl
        exact ⟨b, Or.inr hb, hfb⟩
    · rintro ⟨b, hb | hb, hfb⟩
      · subst hb
        omega
      · have := ih.mpr ⟨b, hb, hfb⟩
        omega

/-- C1: transition-table correctness of training.  For every order
`k ≥ 1` and sequence of `train` calls on a fresh model: the recorded
count for context `c` followed by `ch` equals the total number of
positions `i ≤ len(text) - k - 1` with `text[i:i+k] = c` and
`text[i+k] = ch`, summed over the trained texts (counts accumulate
additively across calls); every table key has length exactly `k`; a
context (or context/character pair) never observed is absent; a text
shorter than `k + 1` characters contributes nothing; and training never
raises on any text content. -/
theorem train_transition_counts (k : Nat) (_hk : 1 ≤ k)
    (texts : List (List Char)) (c : Ctx) (ch : Char) :
    (trainAll k texts).order = k ∧
      tableCount (trainAll k texts).transitions c ch =
        (texts.map (fun t => specOcc k t c ch)).sum ∧
      (∀ key ∈ (trainAll k texts).transitions.map Prod.fst, key.length = k) ∧
      ((alookup (trainAll k texts).transitions c).isSome = true ↔
        0 < (texts.map (fun t => specCtxOcc k t c)).sum) ∧
      (pairPresent (trainAll k texts).transitions c ch = true ↔
        0 < (texts.map (fun t => specOcc k t c ch)).sum) ∧
      (∀ (mo : MarkovChain) (t : List Char),
        trainChecked mo t = some (train mo t)) ∧
      (∀ (mo : MarkovChain) (t : List Char),
        t.length < mo.order + 1 → train mo t = mo) := by
  refine ⟨foldl_train_order texts (mkChain k), ?_, ?_, ?_, ?_,
    fun mo t => trainChecked_eq mo t, fun mo t h => train_short mo t h⟩
  · rw [trainAll, foldl_train_count]
    simp [mkChain, tableCount_nil]
  · intro key hkey
    exact foldl_train_keys texts (mkChain k) (by simp [mkChain]) key hkey
  · rw [trainAll, foldl_train_ctx, sum_map_pos]
    simp [mkChain, alookup]
  · rw [trainAll, foldl_train_pairPresent, sum_map_pos]
    simp [mkChain, pairPresent_nil]

/-- Witness for C1: training order 1 on `"aba"` records exactly one
`a → b` transition, with all the structural conjuncts checked on the
concrete model. -/
theorem train_transition_counts_witness :
    tableCount (trainAll 1 [['a', 'b', 'a']]).transitions ['a'] 'b' =
      ([['a', 'b', 'a']].map (fun t => specOcc 1 t ['a'] 'b')).sum :=
  (train_transition_counts 1 (by decide) [['a', 'b', 'a']] ['a'] 'b').2.1
